import Mathlib

/-!
Verification of the talia domain-availability checker.

The development embeds, as Lean functions, the core of the Go sources:
the WHOIS protocol client (`whois.go`), the sequential batch checker
(`cli.go`, `checkDomains`), the grouped merge (`mergeGrouped`,
`ConvertArrayToGrouped`) and the atomic persistence step
(`WriteGroupedFile`).  Filesystem and network effects are modelled by
explicit state passing: the network exchange is an input value, the
filesystem is an association list from paths to abstract file contents,
and injectable step failures model I/O errors.
-/

namespace Talia

/-- Reason codes from `types.go`: NO_MATCH, TAKEN, ERROR. -/
inductive AvailabilityReason where
  | ReasonNoMatch
  | ReasonTaken
  | ReasonError
deriving DecidableEq, Repr, BEq

open AvailabilityReason

/-- `checkResult` from `cli.go`: outcome of a single domain check. -/
structure checkResult where
  Domain : String
  Avail : Bool
  Reason : AvailabilityReason
  Log : String
deriving DecidableEq, Repr

/-- `DomainRecord` from `types.go`: legacy flat-shape record. -/
structure DomainRecord where
  Domain : String
  Available : Bool
  Reason : AvailabilityReason
  Log : String
deriving DecidableEq, Repr

/-- `GroupedDomain` from `types.go`: a record inside a grouped bucket. -/
structure GroupedDomain where
  Domain : String
  Reason : AvailabilityReason
  Log : String
deriving DecidableEq, Repr

/-- `GroupedData` from `types.go`: the two buckets of the grouped store. -/
@[ext] structure GroupedData where
  Available : List GroupedDomain
  Unavailable : List GroupedDomain
deriving DecidableEq, Repr

/-- Character-list matching at the head, used to embed Go `strings.Contains`. -/
def matchesAt : List Char → List Char → Bool
  | [], _ => true
  | _ :: _, [] => false
  | p :: ps, c :: cs => p == c && matchesAt ps cs

/-- Substring occurrence anywhere in a character list. -/
def hasSub (pat : List Char) : List Char → Bool
  | [] => matchesAt pat []
  | c :: cs => matchesAt pat (c :: cs) || hasSub pat cs

/-- Embedding of Go `strings.Contains s pat`. -/
def strContains (s pat : String) : Bool :=
  hasSub pat.toList s.toList

/-- Error classes the read step of `NetWhoisClient.Lookup` distinguishes:
clean end of stream (`io.EOF`) versus any other error carrying a message. -/
inductive ReadErr where
  | eof
  | other (msg : String)
deriving DecidableEq, Repr

/-- Outcome of the network exchange performed by `NetWhoisClient.Lookup`
(`whois.go`): the connect may fail, the write may fail, or the read loop
finishes with accumulated data and an optional error.  The network itself
is external, so the exchange outcome is an input of the model. -/
inductive NetExchange where
  | connectFail (msg : String)
  | writeFail (msg : String)
  | read (data : String) (err : Option ReadErr)
deriving DecidableEq, Repr

/-- Embedding of `NetWhoisClient.Lookup` (`whois.go` lines 43-90) as a
function of the exchange outcome: read errors that look like a peer
closing early are remapped to the empty-response failure, and a
zero-byte response is always a failure. -/
def NetLookup : NetExchange → Except String String
  | NetExchange.connectFail m => Except.error ("failed to connect to WHOIS: " ++ m)
  | NetExchange.writeFail m => Except.error ("write error: " ++ m)
  | NetExchange.read data err =>
    match err with
    | some (ReadErr.other m) =>
      if strContains m "connection reset by peer" || strContains m "broken pipe"
          || strContains m "connection closed" then
        Except.error "empty WHOIS response"
      else
        Except.error ("read error: " ++ m)
    | _ =>
      if data.length == 0 then Except.error "empty WHOIS response"
      else Except.ok data

/-- Embedding of `CheckDomainAvailabilityWithClient` (`whois.go`): the
client is the lookup oracle; the result is (available, reason, logData,
error). -/
def CheckDomainAvailabilityWithClient (domain : String)
    (lookup : String → Except String String) :
    Bool × AvailabilityReason × String × Option String :=
  match lookup domain with
  | Except.error e => (false, ReasonError, e, some e)
  | Except.ok resp =>
    if strContains resp "No match for" then (true, ReasonNoMatch, resp, none)
    else (false, ReasonTaken, resp, none)

/-- `shouldIncludeLog` from `cli.go`. -/
def shouldIncludeLog (verbose : Bool) (reason : AvailabilityReason) : Bool :=
  verbose || reason == ReasonError

/-- One iteration of the loop body of `checkDomains` (`cli.go` lines 33-59):
check a domain, overwrite the outcome on error, and drop the log unless
it must be included. -/
def checkOne (lookup : String → Except String String) (verbose : Bool)
    (domain : String) : checkResult :=
  match CheckDomainAvailabilityWithClient domain lookup with
  | (avail0, reason0, logData0, errOpt) =>
    match errOpt with
    | some e =>
      { Domain := domain, Avail := false, Reason := ReasonError,
        Log := if shouldIncludeLog verbose ReasonError then "Error: " ++ e else "" }
    | none =>
      { Domain := domain, Avail := avail0, Reason := reason0,
        Log := if shouldIncludeLog verbose reason0 then logData0 else "" }

/-- Embedding of `checkDomains` (`cli.go` lines 28-63): the sequential
loop appending one result per domain.  Progress printing, statistics and
the inter-request sleep do not affect the returned list. -/
def checkDomains (domains : List String) (lookup : String → Except String String)
    (verbose : Bool) : List checkResult :=
  domains.foldl (fun results domain => results ++ [checkOne lookup verbose domain]) []

theorem checkDomains_foldl_eq_map (domains : List String)
    (lookup : String → Except String String) (verbose : Bool) (acc : List checkResult) :
    domains.foldl (fun results domain => results ++ [checkOne lookup verbose domain]) acc
      = acc ++ domains.map (checkOne lookup verbose) := by
  induction domains generalizing acc with
  | nil => simp
  | cons d ds ih => simp [List.foldl_cons, ih]

theorem checkDomains_eq_map (domains : List String)
    (lookup : String → Except String String) (verbose : Bool) :
    checkDomains domains lookup verbose = domains.map (checkOne lookup verbose) := by
  simp [checkDomains, checkDomains_foldl_eq_map]

theorem checkOne_domain (lookup : String → Except String String) (verbose : Bool)
    (domain : String) : (checkOne lookup verbose domain).Domain = domain := by
  unfold checkOne CheckDomainAvailabilityWithClient
  cases lookup domain with
  | error e => rfl
  | ok resp => by_cases h : strContains resp "No match for" = true <;> simp [h]

theorem checkOne_error (lookup : String → Except String String) (verbose : Bool)
    (d e : String) (he : lookup d = Except.error e) :
    checkOne lookup verbose d
      = { Domain := d, Avail := false, Reason := ReasonError, Log := "Error: " ++ e } := by
  unfold checkOne CheckDomainAvailabilityWithClient
  rw [he]
  have hb : (ReasonError == ReasonError) = true := by decide
  simp [shouldIncludeLog, hb]

/-- The zero value a pre-sized Go result slice starts from. -/
def zeroCheckResult : checkResult :=
  { Domain := "", Avail := false, Reason := ReasonError, Log := "" }

/-- One worker completing the job for input index `i`: it checks the
domain at that index and writes the result into the same position of the
shared positional collection. -/
def workerStep (lookup : String → Except String String) (verbose : Bool)
    (domains : List String) (results : List checkResult) (i : Nat) : List checkResult :=
  match domains[i]? with
  | some d => results.set i (checkOne lookup verbose d)
  | none => results

/-- Modelled from the spec: the parallel mode of the batch-check
operation is not in the sources (only the sequential `checkDomains` is).
Per the spec, domains are distributed as indexed jobs to a worker set and
each worker writes its result into the original input position of a
pre-sized result collection; `order` is the completion order of the
index jobs, the only observable nondeterminism. -/
def CheckBatchParallel (domains : List String) (lookup : String → Except String String)
    (verbose : Bool) (order : List Nat) : List checkResult :=
  order.foldl (workerStep lookup verbose domains)
    (List.replicate domains.length zeroCheckResult)

/-- Modelled from the spec: `CheckBatch(domains, client, concurrency, delay)`.
Concurrency 0 selects the sequential loop (`checkDomains` from the
source) with the inter-request delay; any positive or unbounded setting
selects the parallel worker-pool mode, where the delay and the worker
count do not affect the returned results. -/
def CheckBatch (domains : List String) (lookup : String → Except String String)
    (concurrency delay : Nat) (verbose : Bool) (order : List Nat) : List checkResult :=
  if concurrency == 0 then checkDomains domains lookup verbose
  else CheckBatchParallel domains lookup verbose order

theorem workerFold_length (lookup : String → Except String String) (verbose : Bool)
    (domains : List String) (order : List Nat) (acc : List checkResult) :
    (order.foldl (workerStep lookup verbose domains) acc).length = acc.length := by
  induction order generalizing acc with
  | nil => rfl
  | cons j rest ih =>
    rw [List.foldl_cons, ih]
    unfold workerStep
    cases domains[j]? <;> simp

theorem workerFold_not_mem (lookup : String → Except String String) (verbose : Bool)
    (domains : List String) (order : List Nat) (acc : List checkResult) (i : Nat)
    (hi : i ∉ order) :
    (order.foldl (workerStep lookup verbose domains) acc)[i]? = acc[i]? := by
  induction order generalizing acc with
  | nil => rfl
  | cons j rest ih =>
    rw [List.foldl_cons]
    rw [ih _ (fun h => hi (List.mem_cons_of_mem _ h))]
    unfold workerStep
    have hij : i ≠ j := fun h => hi (h ▸ List.mem_cons_self _ _)
    cases domains[j]? with
    | none => rfl
    | some d => exact List.getElem?_set_ne (fun h => hij h.symm)

theorem workerFold_mem (lookup : String → Except String String) (verbose : Bool)
    (domains : List String) (order : List Nat) (acc : List checkResult) (i : Nat) (d : String)
    (hacc : acc.length = domains.length)
    (hmem : i ∈ order) (hd : domains[i]? = some d) :
    (order.foldl (workerStep lookup verbose domains) acc)[i]?
      = some (checkOne lookup verbose d) := by
  induction order generalizing acc with
  | nil => exact absurd hmem (List.not_mem_nil i)
  | cons j rest ih =>
    rw [List.foldl_cons]
    by_cases hr : i ∈ rest
    · apply ih
      · unfold workerStep
        cases domains[j]? <;> simp [hacc]
      · exact hr
    · have hij : i = j := by
        rcases List.mem_cons.mp hmem with h | h
        · exact h
        · exact absurd h hr
      subst hij
      rw [workerFold_not_mem _ _ _ _ _ _ hr]
      unfold workerStep
      rw [hd]
      have hlt : i < acc.length := by
        rw [hacc]
        rcases List.getElem?_eq_some.mp hd with ⟨h, _⟩
        exact h
      simp [List.getElem?_set_self, hlt]

theorem checkBatchParallel_getElem (domains : List String)
    (lookup : String → Except String String) (verbose : Bool) (order : List Nat)
    (horder : order.Perm (List.range domains.length)) (i : Nat) :
    ((CheckBatchParallel domains lookup verbose order)[i]?).map checkResult.Domain
      = domains[i]? := by
  unfold CheckBatchParallel
  by_cases hi : i < domains.length
  · have hmem : i ∈ order := horder.mem_iff.mpr (List.mem_range.mpr hi)
    have hd : domains[i]? = some domains[i] := List.getElem?_eq_getElem hi
    rw [workerFold_mem lookup verbose domains order _ i domains[i]
      (List.length_replicate _ _) hmem hd, hd]
    simp [checkOne_domain]
  · have h1 : (order.foldl (workerStep lookup verbose domains)
        (List.replicate domains.length zeroCheckResult))[i]? = none := by
      apply List.getElem?_eq_none
      rw [workerFold_length, List.length_replicate]
      omega
    have h2 : domains[i]? = none := List.getElem?_eq_none (by omega)
    rw [h1, h2]
    rfl

/-- C1: for every list of input domains, the batch-check operation
returns a result list of the same length as the input whose i-th entry
carries the i-th input domain, in both sequential mode (concurrency 0,
`checkDomains` from the source) and parallel mode (spec-modelled worker
pool, any completion order), for any concurrency setting and delay. -/
theorem checkBatch_length_and_order (domains : List String)
    (lookup : String → Except String String) (concurrency delay : Nat) (verbose : Bool)
    (order : List Nat) (horder : order.Perm (List.range domains.length)) :
    (CheckBatch domains lookup concurrency delay verbose order).length = domains.length ∧
    ∀ i : Nat,
      ((CheckBatch domains lookup concurrency delay verbose order)[i]?).map checkResult.Domain
        = domains[i]? := by
  unfold CheckBatch
  by_cases hc : (concurrency == 0) = true
  · rw [if_pos hc, checkDomains_eq_map]
    constructor
    · exact List.length_map _ _
    · intro i
      rw [List.getElem?_map]
      by_cases hi : i < domains.length
      · rw [List.getElem?_eq_getElem hi]
        simp [checkOne_domain]
      · rw [List.getElem?_eq_none (by omega)]
        rfl
  · rw [if_neg hc]
    constructor
    · unfold CheckBatchParallel
      rw [workerFold_length, List.length_replicate]
    · exact checkBatchParallel_getElem domains lookup verbose order horder

/-- Witness for C1 at a concrete batch of two domains, concurrency 2,
completion order reversed. -/
theorem checkBatch_length_and_order_witness :
    (CheckBatch ["a.com", "b.com"] (fun _ => Except.ok "No match for a.com") 2 0 false
        [1, 0]).length = 2 ∧
    ∀ i : Nat,
      ((CheckBatch ["a.com", "b.com"] (fun _ => Except.ok "No match for a.com") 2 0 false
          [1, 0])[i]?).map checkResult.Domain
        = (["a.com", "b.com"] : List String)[i]? :=
  checkBatch_length_and_order ["a.com", "b.com"] (fun _ => Except.ok "No match for a.com")
    2 0 false [1, 0] (by decide)

/-- C7: a lookup failure for one domain never aborts the batch: the
sequential checker still returns one result per input position, and the
failing domain's entry records reason Error with the error detail as its
log text, `"Error: "` prefixed as in the source. -/
theorem checkDomains_failure_isolated (domains : List String)
    (lookup : String → Except String String) (verbose : Bool) :
    (checkDomains domains lookup verbose).length = domains.length ∧
    ∀ i : Nat, ∀ d e : String, domains[i]? = some d → lookup d = Except.error e →
      (checkDomains domains lookup verbose)[i]?
        = some { Domain := d, Avail := false, Reason := ReasonError, Log := "Error: " ++ e } := by
  rw [checkDomains_eq_map]
  constructor
  · exact List.length_map _ _
  · intro i d e hd he
    rw [List.getElem?_map, hd]
    simp only [Option.map_some']
    rw [checkOne_error lookup verbose d e he]

/-- Witness for C7: a two-domain batch whose second lookup fails still
produces both entries, the failed one marked Error with its detail. -/
theorem checkDomains_failure_isolated_witness :
    (checkDomains ["a.com", "b.com"]
        (fun d => if d == "b.com" then Except.error "boom" else Except.ok "No match for a.com")
        false).length = 2 ∧
    (checkDomains ["a.com", "b.com"]
        (fun d => if d == "b.com" then Except.error "boom" else Except.ok "No match for a.com")
        false)[1]?
      = some { Domain := "b.com", Avail := false, Reason := ReasonError, Log := "Error: " ++ "boom" } := by
  have h := checkDomains_failure_isolated ["a.com", "b.com"]
    (fun d => if d == "b.com" then Except.error "boom" else Except.ok "No match for a.com") false
  exact ⟨h.1, h.2 1 "b.com" "boom" (by rfl) (by rfl)⟩

/-! Grouped merge: embedding of `mergeGrouped`.  Go's `map[string]GroupedDomain`
is embedded as an association list keyed by the record's own `Domain` field:
insertion prepends after erasing the key (last write wins, first hit on
lookup), deletion erases the key.  The output buckets are rebuilt from the
maps and sorted by domain key, exactly as the source sorts them; with unique
keys the sorted list does not depend on Go's map iteration order. -/

/-- Domain keys of a bucket list. -/
def doms (l : List GroupedDomain) : List String :=
  l.map GroupedDomain.Domain

/-- Go map delete for a bucket map keyed by domain. -/
def eraseDomain (m : List GroupedDomain) (k : String) : List GroupedDomain :=
  m.filter (fun gd => !(gd.Domain == k))

/-- Go map insert (overwrite) for a bucket map keyed by domain. -/
def insertDomain (m : List GroupedDomain) (gd : GroupedDomain) : List GroupedDomain :=
  gd :: eraseDomain m gd.Domain

/-- The key-to-record map built from a bucket list, as in the first two
loops of `mergeGrouped`. -/
def buildMap (l : List GroupedDomain) : List GroupedDomain :=
  l.foldl insertDomain []

/-- Map lookup by domain key. -/
def findD (m : List GroupedDomain) (k : String) : Option GroupedDomain :=
  m.find? (fun gd => gd.Domain == k)

/-- Whether some record in `l` carries domain key `k`. -/
def memDom (l : List GroupedDomain) (k : String) : Bool :=
  l.any (fun gd => gd.Domain == k)

/-- Left-biased choice on optional records. -/
def oOr : Option GroupedDomain → Option GroupedDomain → Option GroupedDomain
  | some a, _ => some a
  | none, b => b

/-- The last record in `l` carrying domain key `k`, if any: the value a
sequence of Go map inserts leaves behind. -/
def lastWith : List GroupedDomain → String → Option GroupedDomain
  | [], _ => none
  | gd :: rest, k => oOr (lastWith rest k) (if gd.Domain == k then some gd else none)

/-- Body of the third loop of `mergeGrouped`: a record of the newest
batch classified available is inserted into the available map and
deleted from the unavailable map. -/
def mergeStep1 (p : List GroupedDomain × List GroupedDomain) (gd : GroupedDomain) :
    List GroupedDomain × List GroupedDomain :=
  (insertDomain p.1 gd, eraseDomain p.2 gd.Domain)

/-- Body of the fourth loop of `mergeGrouped`: a record of the newest
batch classified unavailable is inserted into the unavailable map and
deleted from the available map. -/
def mergeStep2 (p : List GroupedDomain × List GroupedDomain) (gd : GroupedDomain) :
    List GroupedDomain × List GroupedDomain :=
  (eraseDomain p.1 gd.Domain, insertDomain p.2 gd)

/-- Insertion into a list kept ascending by domain key. -/
def insertSorted (gd : GroupedDomain) : List GroupedDomain → List GroupedDomain
  | [] => [gd]
  | x :: xs => if gd.Domain ≤ x.Domain then gd :: x :: xs else x :: insertSorted gd xs

/-- Sorting a bucket ascending by domain key, the specification of the
source's `sort.Slice` on the rebuilt buckets. -/
def sortByDomain : List GroupedDomain → List GroupedDomain
  | [] => []
  | x :: xs => insertSorted x (sortByDomain xs)

/-- Embedding of `mergeGrouped`: build a map per bucket from the
existing store, fold the newest batch over both maps (available first,
then unavailable, each insert deleting the key from the opposite map),
rebuild the buckets and sort them by domain key. -/
def mergeGrouped (existing newest : GroupedData) : GroupedData :=
  let avail0 := buildMap existing.Available
  let unavail0 := buildMap existing.Unavailable
  let p1 := newest.Available.foldl mergeStep1 (avail0, unavail0)
  let p2 := newest.Unavailable.foldl mergeStep2 p1
  { Available := sortByDomain p2.1, Unavailable := sortByDomain p2.2 }

theorem oOr_none_left (b : Option GroupedDomain) : oOr none b = b := rfl

theorem oOr_some_left (a : GroupedDomain) (b : Option GroupedDomain) :
    oOr (some a) b = some a := rfl

theorem findD_cons (gd : GroupedDomain) (l : List GroupedDomain) (k : String) :
    findD (gd :: l) k = if gd.Domain == k then some gd else findD l k := by
  simp only [findD, List.find?_cons]
  cases h : (gd.Domain == k) <;> simp [h]

theorem findD_eraseDomain (m : List GroupedDomain) (k0 k : String) :
    findD (eraseDomain m k0) k = if k0 == k then none else findD m k := by
  induction m with
  | nil => cases h : (k0 == k) <;> simp [findD, eraseDomain, h]
  | cons gd rest ih =>
    by_cases h1 : gd.Domain = k0
    · have hstep : eraseDomain (gd :: rest) k0 = eraseDomain rest k0 := by
        simp [eraseDomain, List.filter_cons, h1]
      rw [hstep, ih, findD_cons]
      by_cases h2 : k0 = k
      · simp [h2]
      · have hgk : (gd.Domain == k) = false := by
          simp only [beq_eq_false_iff_ne, ne_eq, h1]
          exact h2
        simp [hgk, h2]
    · have hstep : eraseDomain (gd :: rest) k0 = gd :: eraseDomain rest k0 := by
        simp [eraseDomain, List.filter_cons, h1]
      rw [hstep, findD_cons, findD_cons, ih]
      by_cases h2 : k0 = k
      · have hgk : (gd.Domain == k) = false := by
          simp only [beq_eq_false_iff_ne, ne_eq]
          rw [← h2]
          exact h1
        simp [hgk, h2]
      · simp [h2]

theorem findD_insertDomain (m : List GroupedDomain) (gd : GroupedDomain) (k : String) :
    findD (insertDomain m gd) k
      = if gd.Domain == k then some gd else findD m k := by
  unfold insertDomain
  rw [findD_cons, findD_eraseDomain]
  by_cases h : gd.Domain = k
  · simp [h]
  · have hb : (gd.Domain == k) = false := by simp [h]
    simp [hb, h]

theorem findD_foldl_insert (l : List GroupedDomain) (m : List GroupedDomain) (k : String) :
    findD (l.foldl insertDomain m) k = oOr (lastWith l k) (findD m k) := by
  induction l generalizing m with
  | nil => rfl
  | cons gd rest ih =>
    rw [List.foldl_cons, ih]
    show oOr (lastWith rest k) (findD (insertDomain m gd) k)
      = oOr (oOr (lastWith rest k) (if gd.Domain == k then some gd else none)) (findD m k)
    rw [findD_insertDomain]
    cases lastWith rest k with
    | some a => rfl
    | none =>
      cases h : (gd.Domain == k) <;> simp [oOr, h]

theorem findD_buildMap (l : List GroupedDomain) (k : String) :
    findD (buildMap l) k = lastWith l k := by
  unfold buildMap
  rw [findD_foldl_insert]
  cases lastWith l k <;> rfl

theorem memDom_cons (gd : GroupedDomain) (rest : List GroupedDomain) (k : String) :
    memDom (gd :: rest) k = ((gd.Domain == k) || memDom rest k) := by
  simp [memDom, List.any_cons]

theorem loop1_char (L : List GroupedDomain) (a u : List GroupedDomain) (k : String) :
    findD (L.foldl mergeStep1 (a, u)).1 k = oOr (lastWith L k) (findD a k) ∧
    findD (L.foldl mergeStep1 (a, u)).2 k
      = if memDom L k then none else findD u k := by
  induction L generalizing a u with
  | nil => simp [memDom, oOr, lastWith]
  | cons gd rest ih =>
    rw [List.foldl_cons]
    show findD (rest.foldl mergeStep1 (insertDomain a gd, eraseDomain u gd.Domain)).1 k
        = _ ∧ findD (rest.foldl mergeStep1 (insertDomain a gd, eraseDomain u gd.Domain)).2 k = _
    rcases ih (insertDomain a gd) (eraseDomain u gd.Domain) with ⟨ih1, ih2⟩
    constructor
    · rw [ih1, findD_insertDomain]
      show _ = oOr (oOr (lastWith rest k) (if gd.Domain == k then some gd else none)) (findD a k)
      cases lastWith rest k with
      | some x => rfl
      | none => cases h : (gd.Domain == k) <;> simp [oOr, h]
    · rw [ih2, findD_eraseDomain, memDom_cons]
      by_cases h1 : gd.Domain = k
      · have hb : (gd.Domain == k) = true := by simp [h1]
        have hb2 : (k == k) = true := by simp
        rw [h1]
        simp [hb2]
      · have hb : (gd.Domain == k) = false := by simp [h1]
        simp only [hb, Bool.false_or]
        cases h2 : memDom rest k <;> simp

theorem loop2_char (L : List GroupedDomain) (a u : List GroupedDomain) (k : String) :
    findD (L.foldl mergeStep2 (a, u)).2 k = oOr (lastWith L k) (findD u k) ∧
    findD (L.foldl mergeStep2 (a, u)).1 k
      = if memDom L k then none else findD a k := by
  induction L generalizing a u with
  | nil => simp [memDom, oOr, lastWith]
  | cons gd rest ih =>
    rw [List.foldl_cons]
    show findD (rest.foldl mergeStep2 (eraseDomain a gd.Domain, insertDomain u gd)).2 k
        = _ ∧ findD (rest.foldl mergeStep2 (eraseDomain a gd.Domain, insertDomain u gd)).1 k = _
    rcases ih (eraseDomain a gd.Domain) (insertDomain u gd) with ⟨ih2, ih1⟩
    constructor
    · rw [ih2, findD_insertDomain]
      show _ = oOr (oOr (lastWith rest k) (if gd.Domain == k then some gd else none)) (findD u k)
      cases lastWith rest k with
      | some x => rfl
      | none => cases h : (gd.Domain == k) <;> simp [oOr, h]
    · rw [ih1, findD_eraseDomain, memDom_cons]
      by_cases h1 : gd.Domain = k
      · have hb2 : (k == k) = true := by simp
        rw [h1]
        simp [hb2]
      · have hb : (gd.Domain == k) = false := by simp [h1]
        simp only [hb, Bool.false_or]
        cases h2 : memDom rest k <;> simp

/-- The merged available bucket, as a lookup function: a key classified
unavailable by the newest batch is gone; otherwise the newest available
record wins over the existing one. -/
def availLookup (existing newest : GroupedData) (k : String) : Option GroupedDomain :=
  if memDom newest.Unavailable k then none
  else oOr (lastWith newest.Available k) (lastWith existing.Available k)

/-- The merged unavailable bucket, as a lookup function: the newest
unavailable record wins; otherwise a key classified available by the
newest batch is gone, and the existing record remains. -/
def unavailLookup (existing newest : GroupedData) (k : String) : Option GroupedDomain :=
  oOr (lastWith newest.Unavailable k)
    (if memDom newest.Available k then none else lastWith existing.Unavailable k)

theorem findD_mergeMaps (existing newest : GroupedData) (k : String) :
    findD (newest.Unavailable.foldl mergeStep2
        (newest.Available.foldl mergeStep1
          (buildMap existing.Available, buildMap existing.Unavailable))).1 k
      = availLookup existing newest k ∧
    findD (newest.Unavailable.foldl mergeStep2
        (newest.Available.foldl mergeStep1
          (buildMap existing.Available, buildMap existing.Unavailable))).2 k
      = unavailLookup existing newest k := by
  have h1 := loop1_char newest.Available (buildMap existing.Available)
    (buildMap existing.Unavailable) k
  set p1 := newest.Available.foldl mergeStep1
    (buildMap existing.Available, buildMap existing.Unavailable) with hp1
  have h2 := loop2_char newest.Unavailable p1.1 p1.2 k
  rcases h1 with ⟨h1a, h1u⟩
  rcases h2 with ⟨h2u, h2a⟩
  rw [findD_buildMap] at h1a
  rw [findD_buildMap] at h1u
  constructor
  · rw [show newest.Unavailable.foldl mergeStep2 p1 = newest.Unavailable.foldl mergeStep2 (p1.1, p1.2) by rfl]
    rw [h2a, h1a]
    unfold availLookup
    cases h : memDom newest.Unavailable k <;> simp [h]
  · rw [show newest.Unavailable.foldl mergeStep2 p1 = newest.Unavailable.foldl mergeStep2 (p1.1, p1.2) by rfl]
    rw [h2u, h1u]
    unfold unavailLookup
    rfl

/-- The pair of bucket maps `mergeGrouped` builds before rebuilding and
sorting the output buckets. -/
def mergeMaps (existing newest : GroupedData) :
    List GroupedDomain × List GroupedDomain :=
  newest.Unavailable.foldl mergeStep2
    (newest.Available.foldl mergeStep1
      (buildMap existing.Available, buildMap existing.Unavailable))

theorem mergeGrouped_def (existing newest : GroupedData) :
    mergeGrouped existing newest
      = { Available := sortByDomain (mergeMaps existing newest).1,
          Unavailable := sortByDomain (mergeMaps existing newest).2 } := rfl

/-- A bucket map has no repeated domain key. -/
def NDKeys (m : List GroupedDomain) : Prop :=
  (m.map GroupedDomain.Domain).Nodup

theorem mem_eraseDomain {gd : GroupedDomain} {m : List GroupedDomain} {k : String} :
    gd ∈ eraseDomain m k ↔ gd ∈ m ∧ gd.Domain ≠ k := by
  simp [eraseDomain, List.mem_filter]

theorem ndkeys_eraseDomain {m : List GroupedDomain} (h : NDKeys m) (k : String) :
    NDKeys (eraseDomain m k) :=
  List.Nodup.sublist (List.Sublist.map GroupedDomain.Domain (List.filter_sublist m)) h

theorem ndkeys_insertDomain {m : List GroupedDomain} (h : NDKeys m) (gd : GroupedDomain) :
    NDKeys (insertDomain m gd) := by
  unfold NDKeys insertDomain
  rw [List.map_cons]
  refine List.nodup_cons.mpr ⟨?_, ndkeys_eraseDomain h gd.Domain⟩
  intro hmem
  rcases List.mem_map.mp hmem with ⟨x, hx, hxd⟩
  exact (mem_eraseDomain.mp hx).2 hxd

theorem ndkeys_foldl_insert (l : List GroupedDomain) (m : List GroupedDomain)
    (h : NDKeys m) : NDKeys (l.foldl insertDomain m) := by
  induction l generalizing m with
  | nil => exact h
  | cons gd rest ih => exact ih _ (ndkeys_insertDomain h gd)

theorem ndkeys_buildMap (l : List GroupedDomain) : NDKeys (buildMap l) :=
  ndkeys_foldl_insert l [] (by simp [NDKeys])

theorem ndkeys_loop1 (L : List GroupedDomain) (a u : List GroupedDomain)
    (ha : NDKeys a) (hu : NDKeys u) :
    NDKeys (L.foldl mergeStep1 (a, u)).1 ∧ NDKeys (L.foldl mergeStep1 (a, u)).2 := by
  induction L generalizing a u with
  | nil => exact ⟨ha, hu⟩
  | cons gd rest ih =>
    exact ih (insertDomain a gd) (eraseDomain u gd.Domain)
      (ndkeys_insertDomain ha gd) (ndkeys_eraseDomain hu gd.Domain)

theorem ndkeys_loop2 (L : List GroupedDomain) (a u : List GroupedDomain)
    (ha : NDKeys a) (hu : NDKeys u) :
    NDKeys (L.foldl mergeStep2 (a, u)).1 ∧ NDKeys (L.foldl mergeStep2 (a, u)).2 := by
  induction L generalizing a u with
  | nil => exact ⟨ha, hu⟩
  | cons gd rest ih =>
    exact ih (eraseDomain a gd.Domain) (insertDomain u gd)
      (ndkeys_eraseDomain ha gd.Domain) (ndkeys_insertDomain hu gd)

theorem ndkeys_mergeMaps (existing newest : GroupedData) :
    NDKeys (mergeMaps existing newest).1 ∧ NDKeys (mergeMaps existing newest).2 := by
  unfold mergeMaps
  have h1 := ndkeys_loop1 newest.Available (buildMap existing.Available)
    (buildMap existing.Unavailable) (ndkeys_buildMap _) (ndkeys_buildMap _)
  have h2 := ndkeys_loop2 newest.Unavailable _ _ h1.1 h1.2
  exact h2

/-- Ordering of grouped records by domain key, non-strict. -/
def leD (a b : GroupedDomain) : Prop := a.Domain ≤ b.Domain

/-- Ordering of grouped records by domain key, strict. -/
def ltD (a b : GroupedDomain) : Prop := a.Domain < b.Domain

theorem insertSorted_perm (gd : GroupedDomain) (l : List GroupedDomain) :
    (insertSorted gd l).Perm (gd :: l) := by
  induction l with
  | nil => exact List.Perm.refl _
  | cons x xs ih =>
    unfold insertSorted
    by_cases h : gd.Domain ≤ x.Domain
    · rw [if_pos h]
    · rw [if_neg h]
      exact (ih.cons x).trans (List.Perm.swap gd x xs)

theorem sortByDomain_perm (l : List GroupedDomain) : (sortByDomain l).Perm l := by
  induction l with
  | nil => exact List.Perm.refl _
  | cons x xs ih => exact (insertSorted_perm x (sortByDomain xs)).trans (ih.cons x)

theorem mem_insertSorted {y gd : GroupedDomain} {l : List GroupedDomain} :
    y ∈ insertSorted gd l ↔ y = gd ∨ y ∈ l := by
  have h := (insertSorted_perm gd l).mem_iff (a := y)
  simpa using h

theorem insertSorted_sorted {l : List GroupedDomain} (h : l.Pairwise leD)
    (gd : GroupedDomain) : (insertSorted gd l).Pairwise leD := by
  induction l with
  | nil => simp [insertSorted]
  | cons x xs ih =>
    unfold insertSorted
    rcases List.pairwise_cons.mp h with ⟨hx, hxs⟩
    by_cases hle : gd.Domain ≤ x.Domain
    · rw [if_pos hle]
      refine List.pairwise_cons.mpr ⟨?_, h⟩
      intro y hy
      rcases List.mem_cons.mp hy with rfl | hy
      · exact hle
      · exact le_trans hle (hx y hy)
    · rw [if_neg hle]
      refine List.pairwise_cons.mpr ⟨?_, ih hxs⟩
      intro y hy
      rcases mem_insertSorted.mp hy with rfl | hy
      · exact le_of_not_le hle
      · exact hx y hy

theorem sortByDomain_sorted (l : List GroupedDomain) :
    (sortByDomain l).Pairwise leD := by
  induction l with
  | nil => simp [sortByDomain]
  | cons x xs ih => exact insertSorted_sorted ih x

theorem pairwise_lt_of_ndkeys_sorted {l : List GroupedDomain} (nd : NDKeys l)
    (h : l.Pairwise leD) : l.Pairwise ltD := by
  unfold NDKeys at nd
  have hne : l.Pairwise (fun a b => a.Domain ≠ b.Domain) := by
    have hp : (l.map GroupedDomain.Domain).Pairwise Ne := nd
    exact List.pairwise_map.mp hp
  exact (h.and hne).imp (fun hab => lt_of_le_of_ne hab.1 hab.2)

theorem findD_eq_some_of_mem {m : List GroupedDomain} {gd : GroupedDomain}
    (nd : NDKeys m) (hm : gd ∈ m) (k : String) (hk : gd.Domain = k) :
    findD m k = some gd := by
  induction m with
  | nil => cases hm
  | cons x rest ih =>
    unfold NDKeys at nd
    rw [List.map_cons] at nd
    rcases List.nodup_cons.mp nd with ⟨hni, hrest⟩
    rw [findD_cons]
    rcases List.mem_cons.mp hm with rfl | hmem
    · simp [hk]
    · have hx : (x.Domain == k) = false := by
        simp only [beq_eq_false_iff_ne, ne_eq]
        intro hxe
        exact hni (hxe.trans hk.symm ▸ List.mem_map_of_mem GroupedDomain.Domain hmem)
      simp only [hx, if_false]
      exact ih hrest hmem

theorem findD_mem {m : List GroupedDomain} {k : String} {gd : GroupedDomain}
    (h : findD m k = some gd) : gd ∈ m ∧ gd.Domain = k := by
  unfold findD at h
  refine ⟨List.mem_of_find?_eq_some h, ?_⟩
  have h2 := List.find?_some h
  simpa using h2

theorem findD_none_iff {m : List GroupedDomain} {k : String} :
    findD m k = none ↔ ∀ gd ∈ m, gd.Domain ≠ k := by
  unfold findD
  rw [List.find?_eq_none]
  simp

theorem ndkeys_of_perm {m m' : List GroupedDomain} (nd : NDKeys m)
    (hp : m.Perm m') : NDKeys m' :=
  ((hp.map GroupedDomain.Domain).nodup_iff).mp nd

theorem findD_perm {m m' : List GroupedDomain} {k : String} (nd : NDKeys m)
    (hp : m.Perm m') : findD m k = findD m' k := by
  have nd' : NDKeys m' := ndkeys_of_perm nd hp
  cases h : findD m k with
  | some gd =>
    rcases findD_mem h with ⟨hm, hk⟩
    exact (findD_eq_some_of_mem nd' (hp.mem_iff.mp hm) k hk).symm
  | none =>
    symm
    rw [findD_none_iff] at h ⊢
    intro gd hgd
    exact h gd (hp.mem_iff.mpr hgd)

theorem perm_of_findD_eq {m m' : List GroupedDomain} (nd : NDKeys m) (nd' : NDKeys m')
    (h : ∀ k, findD m k = findD m' k) : m.Perm m' := by
  have hmem : ∀ gd : GroupedDomain, gd ∈ m ↔ gd ∈ m' := by
    intro gd
    constructor
    · intro hm
      have h1 := findD_eq_some_of_mem nd hm gd.Domain rfl
      rw [h gd.Domain] at h1
      exact (findD_mem h1).1
    · intro hm
      have h1 := findD_eq_some_of_mem nd' hm gd.Domain rfl
      rw [← h gd.Domain] at h1
      exact (findD_mem h1).1
  exact (List.perm_ext_iff_of_nodup (List.Nodup.of_map _ nd) (List.Nodup.of_map _ nd')).mpr hmem

theorem sorted_unique {l l' : List GroupedDomain} (nd : NDKeys l) (hp : l.Perm l')
    (s : l.Pairwise leD) (s' : l'.Pairwise leD) : l = l' := by
  have nd' : NDKeys l' := ndkeys_of_perm nd hp
  have hlt := pairwise_lt_of_ndkeys_sorted nd s
  have hlt' := pairwise_lt_of_ndkeys_sorted nd' s'
  haveI : IsAntisymm GroupedDomain ltD := ⟨fun _ _ h1 h2 => absurd h2 (lt_asymm h1)⟩
  exact List.eq_of_perm_of_sorted hp hlt hlt'

theorem ndkeys_merge_buckets (existing newest : GroupedData) :
    NDKeys (mergeGrouped existing newest).Available ∧
    NDKeys (mergeGrouped existing newest).Unavailable := by
  rw [mergeGrouped_def]
  rcases ndkeys_mergeMaps existing newest with ⟨h1, h2⟩
  exact ⟨ndkeys_of_perm h1 (sortByDomain_perm _).symm,
    ndkeys_of_perm h2 (sortByDomain_perm _).symm⟩

theorem findD_merge_avail (existing newest : GroupedData) (k : String) :
    findD (mergeGrouped existing newest).Available k = availLookup existing newest k := by
  rw [mergeGrouped_def]
  have hnd := (ndkeys_mergeMaps existing newest).1
  have hperm := sortByDomain_perm (mergeMaps existing newest).1
  rw [← findD_perm hnd hperm.symm]
  exact (findD_mergeMaps existing newest k).1

theorem findD_merge_unavail (existing newest : GroupedData) (k : String) :
    findD (mergeGrouped existing newest).Unavailable k = unavailLookup existing newest k := by
  rw [mergeGrouped_def]
  have hnd := (ndkeys_mergeMaps existing newest).2
  have hperm := sortByDomain_perm (mergeMaps existing newest).2
  rw [← findD_perm hnd hperm.symm]
  exact (findD_mergeMaps existing newest k).2

theorem lastWith_some_mem {l : List GroupedDomain} {k : String} {x : GroupedDomain}
    (h : lastWith l k = some x) : x ∈ l ∧ x.Domain = k := by
  induction l with
  | nil => cases h
  | cons gd rest ih =>
    unfold lastWith at h
    cases hl : lastWith rest k with
    | some y =>
      rw [hl, oOr_some_left] at h
      cases h
      rcases ih hl with ⟨hm, hk⟩
      exact ⟨List.mem_cons_of_mem _ hm, hk⟩
    | none =>
      rw [hl, oOr_none_left] at h
      by_cases hg : (gd.Domain == k) = true
      · rw [if_pos hg] at h
        cases h
        exact ⟨List.mem_cons_self _ _, by simpa using hg⟩
      · rw [if_neg hg] at h
        cases h

theorem lastWith_isSome (l : List GroupedDomain) (k : String) :
    (lastWith l k).isSome = memDom l k := by
  induction l with
  | nil => rfl
  | cons gd rest ih =>
    rw [memDom_cons]
    show (oOr (lastWith rest k) (if gd.Domain == k then some gd else none)).isSome = _
    cases hl : lastWith rest k with
    | some y =>
      rw [oOr_some_left]
      have : memDom rest k = true := by rw [← ih, hl]; rfl
      simp [this]
    | none =>
      rw [oOr_none_left]
      have hm : memDom rest k = false := by rw [← ih, hl]; rfl
      cases hg : (gd.Domain == k) <;> simp [hg, hm]

theorem memDom_eq_true_iff {l : List GroupedDomain} {k : String} :
    memDom l k = true ↔ ∃ gd ∈ l, gd.Domain = k := by
  unfold memDom
  rw [List.any_eq_true]
  simp

theorem lastWith_eq_findD {l : List GroupedDomain} (nd : NDKeys l) (k : String) :
    lastWith l k = findD l k := by
  cases h : lastWith l k with
  | some x =>
    rcases lastWith_some_mem h with ⟨hm, hk⟩
    exact (findD_eq_some_of_mem nd hm k hk).symm
  | none =>
    have hmem : memDom l k = false := by rw [← lastWith_isSome, h]; rfl
    symm
    rw [findD_none_iff]
    intro gd hgd hk
    have : memDom l k = true := memDom_eq_true_iff.mpr ⟨gd, hgd, hk⟩
    rw [hmem] at this
    cases this

theorem memDoms_iff_findD {l : List GroupedDomain} {k : String} :
    k ∈ doms l ↔ (findD l k).isSome := by
  unfold doms
  constructor
  · intro h
    rcases List.mem_map.mp h with ⟨gd, hgd, hk⟩
    cases hf : findD l k with
    | some _ => rfl
    | none =>
      rw [findD_none_iff] at hf
      exact absurd hk (hf gd hgd)
  · intro h
    cases hf : findD l k with
    | some gd =>
      rcases findD_mem hf with ⟨hm, hk⟩
      exact List.mem_map.mpr ⟨gd, hm, hk⟩
    | none => rw [hf] at h; cases h

theorem mem_doms_iff_memDom {l : List GroupedDomain} {k : String} :
    k ∈ doms l ↔ memDom l k = true := by
  unfold doms
  rw [memDom_eq_true_iff]
  simp

theorem merge_buckets_sorted_le (existing newest : GroupedData) :
    ((mergeGrouped existing newest).Available).Pairwise leD ∧
    ((mergeGrouped existing newest).Unavailable).Pairwise leD := by
  rw [mergeGrouped_def]
  exact ⟨sortByDomain_sorted _, sortByDomain_sorted _⟩

/-- C9: each bucket of the merged output is strictly ascending by domain
key (domain keys within a bucket are unique), so the serialized output
is deterministic for a given set of merged records. -/
theorem mergeGrouped_sorted (existing newest : GroupedData) :
    ((mergeGrouped existing newest).Available).Pairwise ltD ∧
    ((mergeGrouped existing newest).Unavailable).Pairwise ltD := by
  rcases ndkeys_merge_buckets existing newest with ⟨h1, h2⟩
  rcases merge_buckets_sorted_le existing newest with ⟨s1, s2⟩
  exact ⟨pairwise_lt_of_ndkeys_sorted h1 s1, pairwise_lt_of_ndkeys_sorted h2 s2⟩

/-- C5: a domain classified Taken by the newest batch (in its
unavailable bucket) ends up only in the unavailable bucket of the merge,
regardless of its prior bucket; symmetrically, a domain classified only
available by the newest batch ends up only in the available bucket. -/
theorem mergeGrouped_reclassify (existing newest : GroupedData) (k : String) :
    (k ∈ doms newest.Unavailable →
      k ∈ doms (mergeGrouped existing newest).Unavailable ∧
      k ∉ doms (mergeGrouped existing newest).Available) ∧
    (k ∈ doms newest.Available → k ∉ doms newest.Unavailable →
      k ∈ doms (mergeGrouped existing newest).Available ∧
      k ∉ doms (mergeGrouped existing newest).Unavailable) := by
  constructor
  · intro hU
    rw [mem_doms_iff_memDom] at hU
    constructor
    · rw [memDoms_iff_findD, findD_merge_unavail]
      unfold unavailLookup
      cases hl : lastWith newest.Unavailable k with
      | some x => rw [oOr_some_left]; rfl
      | none =>
        rw [← lastWith_isSome, hl] at hU
        cases hU
    · rw [memDoms_iff_findD, findD_merge_avail]
      unfold availLookup
      simp [hU]
  · intro hA hU
    rw [mem_doms_iff_memDom] at hA
    rw [mem_doms_iff_memDom] at hU
    have hUb : memDom newest.Unavailable k = false := by
      cases h : memDom newest.Unavailable k with
      | false => rfl
      | true => exact absurd h hU
    have hlU : lastWith newest.Unavailable k = none := by
      cases hl : lastWith newest.Unavailable k with
      | none => rfl
      | some x =>
        have := lastWith_isSome newest.Unavailable k
        rw [hl, hUb] at this
        cases this
    constructor
    · rw [memDoms_iff_findD, findD_merge_avail]
      unfold availLookup
      rw [if_neg (by simp [hUb])]
      cases hl : lastWith newest.Available k with
      | some x => rw [oOr_some_left]; rfl
      | none =>
        have := lastWith_isSome newest.Available k
        rw [hl, hA] at this
        cases this
    · rw [memDoms_iff_findD, findD_merge_unavail]
      unfold unavailLookup
      rw [hlU, oOr_none_left, if_pos (by simp [hA])]
      simp

/-- Existing store for the C5 witness: `a.com` available before. -/
def c5existing : GroupedData := ⟨[⟨"a.com", ReasonNoMatch, ""⟩], []⟩

/-- Newest batch for the C5 witness: `a.com` now Taken. -/
def c5newest : GroupedData := ⟨[], [⟨"a.com", ReasonTaken, ""⟩]⟩

/-- Witness for C5: a previously available domain reclassified Taken
lands only in the unavailable bucket. -/
theorem mergeGrouped_reclassify_witness :
    "a.com" ∈ doms (mergeGrouped c5existing c5newest).Unavailable ∧
    "a.com" ∉ doms (mergeGrouped c5existing c5newest).Available :=
  (mergeGrouped_reclassify c5existing c5newest "a.com").1 (by decide)

/-- Existing store violating bucket disjointness: the domain `a.com`
sits in both buckets, as a legacy flat file with duplicate records can
produce. -/
def c2existing : GroupedData :=
  ⟨[⟨"a.com", ReasonNoMatch, ""⟩], [⟨"a.com", ReasonTaken, ""⟩]⟩

/-- C2 counterexample: merging an empty newest batch into an existing
store that already holds `a.com` in both buckets leaves `a.com` in both
buckets of the output, refuting the unconditional claim. -/
theorem mergeGrouped_disjoint_cex :
    "a.com" ∈ doms (mergeGrouped c2existing ⟨[], []⟩).Available ∧
    "a.com" ∈ doms (mergeGrouped c2existing ⟨[], []⟩).Unavailable := by decide

/-- C2 (amended): provided no domain key appears in both buckets of the
existing store, no domain key appears in both buckets of the merge
output, for every newest batch. -/
theorem mergeGrouped_buckets_disjoint (existing newest : GroupedData)
    (hdisj : ∀ k, ¬(k ∈ doms existing.Available ∧ k ∈ doms existing.Unavailable)) :
    ∀ k, ¬(k ∈ doms (mergeGrouped existing newest).Available ∧
      k ∈ doms (mergeGrouped existing newest).Unavailable) := by
  rintro k ⟨h1, h2⟩
  rw [memDoms_iff_findD, findD_merge_avail] at h1
  rw [memDoms_iff_findD, findD_merge_unavail] at h2
  unfold availLookup at h1
  unfold unavailLookup at h2
  cases hU : memDom newest.Unavailable k with
  | true => rw [if_pos (by simp [hU])] at h1; cases h1
  | false =>
    rw [if_neg (by simp [hU])] at h1
    have hlU : lastWith newest.Unavailable k = none := by
      cases hl : lastWith newest.Unavailable k with
      | none => rfl
      | some x =>
        have := lastWith_isSome newest.Unavailable k
        rw [hl, hU] at this
        cases this
    rw [hlU, oOr_none_left] at h2
    cases hA : memDom newest.Available k with
    | true => rw [if_pos (by simp [hA])] at h2; cases h2
    | false =>
      rw [if_neg (by simp [hA])] at h2
      have hlA : lastWith newest.Available k = none := by
        cases hl : lastWith newest.Available k with
        | none => rfl
        | some x =>
          have := lastWith_isSome newest.Available k
          rw [hl, hA] at this
          cases this
      rw [hlA, oOr_none_left] at h1
      refine hdisj k ⟨?_, ?_⟩
      · rw [mem_doms_iff_memDom, ← lastWith_isSome]
        exact h1
      · rw [mem_doms_iff_memDom, ← lastWith_isSome]
        exact h2

/-- Existing store for the C2 witness: disjoint buckets. -/
def c2wExisting : GroupedData :=
  ⟨[⟨"a.com", ReasonNoMatch, ""⟩], [⟨"b.com", ReasonTaken, ""⟩]⟩

/-- Newest batch for the C2 witness: reclassifies `b.com` available. -/
def c2wNewest : GroupedData := ⟨[⟨"b.com", ReasonNoMatch, ""⟩], []⟩

/-- Witness for the amended C2 at a concrete disjoint store and the
reclassified key. -/
theorem mergeGrouped_buckets_disjoint_witness :
    ¬("b.com" ∈ doms (mergeGrouped c2wExisting c2wNewest).Available ∧
      "b.com" ∈ doms (mergeGrouped c2wExisting c2wNewest).Unavailable) :=
  mergeGrouped_buckets_disjoint c2wExisting c2wNewest (by
    rintro k ⟨h1, h2⟩
    have e1 : doms c2wExisting.Available = ["a.com"] := rfl
    have e2 : doms c2wExisting.Unavailable = ["b.com"] := rfl
    rw [e1, List.mem_singleton] at h1
    rw [e2, List.mem_singleton] at h2
    subst h1
    exact absurd h2 (by decide)) "b.com"

/-- C3: merging the same newest batch a second time into the output of
the first merge reproduces that output exactly. -/
theorem mergeGrouped_idempotent (existing newest : GroupedData) :
    mergeGrouped (mergeGrouped existing newest) newest
      = mergeGrouped existing newest := by
  have ndM := ndkeys_merge_buckets existing newest
  have havail : ∀ k,
      findD (mergeGrouped (mergeGrouped existing newest) newest).Available k
        = findD (mergeGrouped existing newest).Available k := by
    intro k
    rw [findD_merge_avail, findD_merge_avail]
    unfold availLookup
    cases hU : memDom newest.Unavailable k with
    | true => rw [if_pos (by simp [hU]), if_pos (by simp [hU])]
    | false =>
      rw [if_neg (by simp [hU]), if_neg (by simp [hU])]
      have hlw : lastWith (mergeGrouped existing newest).Available k
          = availLookup existing newest k := by
        rw [lastWith_eq_findD ndM.1, findD_merge_avail]
      rw [hlw]
      unfold availLookup
      rw [if_neg (by simp [hU])]
      cases lastWith newest.Available k with
      | some a => rfl
      | none => rfl
  have hunavail : ∀ k,
      findD (mergeGrouped (mergeGrouped existing newest) newest).Unavailable k
        = findD (mergeGrouped existing newest).Unavailable k := by
    intro k
    rw [findD_merge_unavail, findD_merge_unavail]
    unfold unavailLookup
    have hlw : lastWith (mergeGrouped existing newest).Unavailable k
        = unavailLookup existing newest k := by
      rw [lastWith_eq_findD ndM.2, findD_merge_unavail]
    cases hN : lastWith newest.Unavailable k with
    | some a => rw [oOr_some_left, oOr_some_left]
    | none =>
      rw [oOr_none_left, oOr_none_left]
      cases hA : memDom newest.Available k with
      | true => rw [if_pos (by simp [hA]), if_pos (by simp [hA])]
      | false =>
        rw [if_neg (by simp [hA]), if_neg (by simp [hA]), hlw]
        unfold unavailLookup
        rw [hN, oOr_none_left, if_neg (by simp [hA])]
  have ndM2 := ndkeys_merge_buckets (mergeGrouped existing newest) newest
  have p1 := perm_of_findD_eq ndM2.1 ndM.1 havail
  have p2 := perm_of_findD_eq ndM2.2 ndM.2 hunavail
  have s2 := merge_buckets_sorted_le (mergeGrouped existing newest) newest
  have s1 := merge_buckets_sorted_le existing newest
  exact GroupedData.ext
    (sorted_unique ndM2.1 p1 s2.1 s1.1)
    (sorted_unique ndM2.2 p2 s2.2 s1.2)

theorem netLookup_empty (err : Option ReadErr) :
    ∃ e : String, NetLookup (NetExchange.read "" err) = Except.error e := by
  match err with
  | none => exact ⟨"empty WHOIS response", rfl⟩
  | some ReadErr.eof => exact ⟨"empty WHOIS response", rfl⟩
  | some (ReadErr.other m) =>
    simp only [NetLookup]
    by_cases h : (strContains m "connection reset by peer" || strContains m "broken pipe"
        || strContains m "connection closed") = true
    · rw [if_pos h]
      exact ⟨"empty WHOIS response", rfl⟩
    · rw [if_neg h]
      exact ⟨"read error: " ++ m, rfl⟩

/-- C6: a zero-byte protocol response always makes Lookup fail with an
error; the availability classification of such a lookup is Error, never
NoMatch or Taken; and a successful Lookup never returns an empty
response, so NoMatch/Taken classification runs only on a non-empty
response obtained without error. -/
theorem lookup_empty_response_error :
    (∀ err : Option ReadErr, ∃ e : String,
      NetLookup (NetExchange.read "" err) = Except.error e) ∧
    (∀ err : Option ReadErr, ∀ domain : String,
      (CheckDomainAvailabilityWithClient domain
        (fun _ => NetLookup (NetExchange.read "" err))).2.1 = ReasonError) ∧
    (∀ ev : NetExchange, ∀ resp : String,
      NetLookup ev = Except.ok resp → resp ≠ "") := by
  refine ⟨netLookup_empty, ?_, ?_⟩
  · intro err domain
    rcases netLookup_empty err with ⟨e, he⟩
    simp [CheckDomainAvailabilityWithClient, he]
  · intro ev resp hok
    match ev with
    | NetExchange.connectFail m => exact absurd hok (by simp [NetLookup])
    | NetExchange.writeFail m => exact absurd hok (by simp [NetLookup])
    | NetExchange.read data err =>
      match err with
      | some (ReadErr.other m) =>
        simp only [NetLookup] at hok
        by_cases h : (strContains m "connection reset by peer" || strContains m "broken pipe"
            || strContains m "connection closed") = true
        · rw [if_pos h] at hok
          cases hok
        · rw [if_neg h] at hok
          cases hok
      | none =>
        simp only [NetLookup] at hok
        by_cases h : (data.length == 0) = true
        · rw [if_pos h] at hok
          cases hok
        · rw [if_neg h] at hok
          cases hok
          intro hemp
          rw [hemp] at h
          exact h rfl
      | some ReadErr.eof =>
        simp only [NetLookup] at hok
        by_cases h : (data.length == 0) = true
        · rw [if_pos h] at hok
          cases hok
        · rw [if_neg h] at hok
          cases hok
          intro hemp
          rw [hemp] at h
          exact h rfl

/-- Witness for C6: a zero-byte exchange classified Error, and a
concrete successful lookup whose response is non-empty. -/
theorem lookup_empty_response_error_witness :
    (CheckDomainAvailabilityWithClient "x.com"
      (fun _ => NetLookup (NetExchange.read "" none))).2.1 = ReasonError ∧
    ("abc" : String) ≠ "" :=
  ⟨lookup_empty_response_error.2.1 none "x.com",
   lookup_empty_response_error.2.2 (NetExchange.read "abc" none) "abc" (by rfl)⟩

/-- Conversion of one legacy record, as in the loop body of
`ConvertArrayToGrouped`. -/
def toGroupedDomain (rec : DomainRecord) : GroupedDomain :=
  { Domain := rec.Domain, Reason := rec.Reason, Log := rec.Log }

/-- Embedding of `ConvertArrayToGrouped`: each legacy record is appended
to the bucket named by its stored availability flag. -/
def ConvertArrayToGrouped (arr : List DomainRecord) : GroupedData :=
  arr.foldl
    (fun gd rec =>
      if rec.Available then { gd with Available := gd.Available ++ [toGroupedDomain rec] }
      else { gd with Unavailable := gd.Unavailable ++ [toGroupedDomain rec] })
    ⟨[], []⟩

theorem convertArray_foldl (arr : List DomainRecord) (gd : GroupedData) :
    arr.foldl
      (fun gd rec =>
        if rec.Available then { gd with Available := gd.Available ++ [toGroupedDomain rec] }
        else { gd with Unavailable := gd.Unavailable ++ [toGroupedDomain rec] })
      gd
    = ⟨gd.Available ++ (arr.filter (fun r => r.Available)).map toGroupedDomain,
       gd.Unavailable ++ (arr.filter (fun r => !r.Available)).map toGroupedDomain⟩ := by
  induction arr generalizing gd with
  | nil => simp
  | cons rec rest ih =>
    rw [List.foldl_cons, ih]
    cases h : rec.Available with
    | true => simp [List.filter_cons, h]
    | false => simp [List.filter_cons, h]

/-- C8: legacy conversion buckets each record by its stored availability
flag, preserving reason and log; merging an empty newest batch into a
converted legacy store of one available and one unavailable record
yields the grouped shape with the same two entries unchanged. -/
theorem convertArray_legacy_upgrade :
    (∀ arr : List DomainRecord,
      ConvertArrayToGrouped arr
        = ⟨(arr.filter (fun r => r.Available)).map toGroupedDomain,
           (arr.filter (fun r => !r.Available)).map toGroupedDomain⟩) ∧
    (∀ r1 r2 : DomainRecord, r1.Available = true → r2.Available = false →
      mergeGrouped (ConvertArrayToGrouped [r1, r2]) ⟨[], []⟩
        = ⟨[toGroupedDomain r1], [toGroupedDomain r2]⟩) := by
  have hconv : ∀ arr : List DomainRecord,
      ConvertArrayToGrouped arr
        = ⟨(arr.filter (fun r => r.Available)).map toGroupedDomain,
           (arr.filter (fun r => !r.Available)).map toGroupedDomain⟩ := by
    intro arr
    unfold ConvertArrayToGrouped
    rw [convertArray_foldl]
    simp
  refine ⟨hconv, ?_⟩
  intro r1 r2 h1 h2
  have hc : ConvertArrayToGrouped [r1, r2]
      = ⟨[toGroupedDomain r1], [toGroupedDomain r2]⟩ := by
    rw [hconv]
    simp [List.filter_cons, h1, h2]
  rw [hc]
  rfl

/-- Available legacy record for the C8 witness. -/
def c8r1 : DomainRecord := ⟨"a.com", true, ReasonNoMatch, "la"⟩

/-- Unavailable legacy record for the C8 witness. -/
def c8r2 : DomainRecord := ⟨"b.com", false, ReasonTaken, "lb"⟩

/-- Witness for C8: a concrete legacy pair survives the upgrade and an
empty merge unchanged. -/
theorem convertArray_legacy_upgrade_witness :
    mergeGrouped (ConvertArrayToGrouped [c8r1, c8r2]) ⟨[], []⟩
      = ⟨[toGroupedDomain c8r1], [toGroupedDomain c8r2]⟩ :=
  convertArray_legacy_upgrade.2 c8r1 c8r2 (by rfl) (by rfl)

/-! Persistence: embedding of `WriteGroupedFile` over a model
filesystem.  File contents are abstracted by their parse class: a
directory, an empty file, JSON in the grouped shape, JSON in the legacy
flat-array shape, or content parsing as neither.  The serialized merged
store is the grouped-shape content carrying the merged data. -/

/-- Abstract content of a filesystem entry as `WriteGroupedFile`
distinguishes it. -/
inductive FileContent where
  | dir
  | emptyFile
  | groupedJSON (gd : GroupedData)
  | legacyJSON (arr : List DomainRecord)
  | otherJSON (s : String)
deriving DecidableEq, Repr

/-- The model filesystem: an association of paths to contents. -/
abbrev FS := List (String × FileContent)

/-- Content stored at a path, if the path exists. -/
def lookupFS (fs : FS) (path : String) : Option FileContent :=
  (fs.find? (fun pr => pr.1 == path)).map Prod.snd

/-- Create or replace the entry at a path. -/
def setFS (fs : FS) (path : String) (c : FileContent) : FS :=
  (path, c) :: fs.filter (fun pr => !(pr.1 == path))

/-- Remove the entry at a path. -/
def removeFS (fs : FS) (path : String) : FS :=
  fs.filter (fun pr => !(pr.1 == path))

/-- Typed failure classes of `WriteGroupedFile`, one per wrapped error
message in the source. -/
inductive WriteError where
  | readIsDir
  | parseFail
  | createTempFail
  | writeTempFail
  | closeTempFail
  | renameFail
deriving DecidableEq, Repr

/-- Which I/O step of the persistence tail is made to fail, modelling
injectable filesystem errors. -/
inductive StepFail where
  | noFail
  | createTemp
  | writeTemp
  | closeTemp
  | rename
deriving DecidableEq, Repr

/-- The existing store parsed from the destination, as the read/parse
phase of `WriteGroupedFile` computes it: grouped content is used
directly, legacy content is upgraded, anything absent or empty counts as
an empty store. -/
def existingOf (fs : FS) (path : String) : GroupedData :=
  match lookupFS fs path with
  | some (FileContent.groupedJSON gd) => gd
  | some (FileContent.legacyJSON arr) => ConvertArrayToGrouped arr
  | _ => ⟨[], []⟩

/-- The persistence tail of `WriteGroupedFile` (temp-file creation,
write, close, rename): on a step failure the temporary file is removed
and the step's typed error returned; on success the rename replaces the
destination with the fully written temporary file. -/
def persistTail (fs : FS) (path tmpName : String) (content : FileContent)
    (fail : StepFail) : FS × Option WriteError :=
  match fail with
  | StepFail.createTemp => (fs, some WriteError.createTempFail)
  | StepFail.writeTemp =>
    (removeFS (setFS fs tmpName FileContent.emptyFile) tmpName,
     some WriteError.writeTempFail)
  | StepFail.closeTemp =>
    (removeFS (setFS (setFS fs tmpName FileContent.emptyFile) tmpName content) tmpName,
     some WriteError.closeTempFail)
  | StepFail.rename =>
    (removeFS (setFS (setFS fs tmpName FileContent.emptyFile) tmpName content) tmpName,
     some WriteError.renameFail)
  | StepFail.noFail =>
    (setFS (removeFS (setFS (setFS fs tmpName FileContent.emptyFile) tmpName content) tmpName)
        path content,
     none)

/-- Embedding of `WriteGroupedFile`: empty path returns immediately with
no effect; a directory destination or unparseable content is a typed
error before any write; otherwise the merged store is serialized and
persisted through the temp-file tail. -/
def WriteGroupedFile (fs : FS) (path : String) (newest : GroupedData)
    (tmpName : String) (fail : StepFail) : FS × Option WriteError :=
  if path == "" then (fs, none)
  else
    match lookupFS fs path with
    | some FileContent.dir => (fs, some WriteError.readIsDir)
    | some (FileContent.otherJSON _) => (fs, some WriteError.parseFail)
    | _ =>
      persistTail fs path tmpName
        (FileContent.groupedJSON (mergeGrouped (existingOf fs path) newest)) fail

theorem find?_filter_ne (fs : FS) (p q : String) (h : q ≠ p) :
    (fs.filter (fun pr => !(pr.1 == p))).find? (fun pr => pr.1 == q)
      = fs.find? (fun pr => pr.1 == q) := by
  induction fs with
  | nil => rfl
  | cons hd tl ih =>
    rw [List.filter_cons]
    by_cases h1 : hd.1 = p
    · have hb : (hd.1 == p) = true := by simp [h1]
      have hq : (hd.1 == q) = false := by
        simp only [beq_eq_false_iff_ne, ne_eq, h1]
        exact fun e => h e.symm
      rw [hb]
      simp only [Bool.not_true]
      rw [if_neg (by simp)]
      rw [ih, List.find?_cons, hq]
    · have hb : (hd.1 == p) = false := by simp [h1]
      rw [hb]
      simp only [Bool.not_false]
      rw [if_pos trivial]
      rw [List.find?_cons, List.find?_cons]
      cases hq : (hd.1 == q) with
      | true => rfl
      | false => exact ih

theorem lookupFS_set_self (fs : FS) (p : String) (c : FileContent) :
    lookupFS (setFS fs p c) p = some c := by
  unfold lookupFS setFS
  rw [List.find?_cons]
  have : ((p, c).1 == p) = true := by simp
  rw [this]
  rfl

theorem lookupFS_set_ne (fs : FS) (p q : String) (c : FileContent) (h : q ≠ p) :
    lookupFS (setFS fs p c) q = lookupFS fs q := by
  unfold lookupFS setFS
  rw [List.find?_cons]
  have hb : ((p, c).1 == q) = false := by
    simp only [beq_eq_false_iff_ne, ne_eq]
    exact fun e => h e.symm
  rw [hb, find?_filter_ne fs p q h]

theorem lookupFS_remove_self (fs : FS) (p : String) :
    lookupFS (removeFS fs p) p = none := by
  unfold lookupFS removeFS
  rw [List.find?_eq_none.mpr]
  · rfl
  · intro x hx
    rcases List.mem_filter.mp hx with ⟨_, hpx⟩
    simp at hpx
    simp [hpx]

theorem lookupFS_remove_ne (fs : FS) (p q : String) (h : q ≠ p) :
    lookupFS (removeFS fs p) q = lookupFS fs q := by
  unfold lookupFS removeFS
  rw [find?_filter_ne fs p q h]

/-- C10: calling `WriteGroupedFile` with an empty destination path returns
success (no error) immediately and performs no filesystem effect. -/
theorem writeGroupedFile_empty_path_noop (fs : FS) (newest : GroupedData)
    (tmpName : String) (fail : StepFail) :
    WriteGroupedFile fs "" newest tmpName fail = (fs, none) := rfl

theorem writeGroupedFile_reaches_tail (fs : FS) (path : String) (newest : GroupedData)
    (tmpName : String) (fail : StepFail)
    (hpath : path ≠ "")
    (hdir : lookupFS fs path ≠ some FileContent.dir)
    (hother : ∀ s, lookupFS fs path ≠ some (FileContent.otherJSON s)) :
    WriteGroupedFile fs path newest tmpName fail
      = persistTail fs path tmpName
          (FileContent.groupedJSON (mergeGrouped (existingOf fs path) newest)) fail := by
  unfold WriteGroupedFile
  rw [if_neg (by simp [hpath])]
  cases hc : lookupFS fs path with
  | none => rfl
  | some fc =>
    cases fc with
    | dir => exact absurd hc hdir
    | otherJSON s => exact absurd hc (hother s)
    | emptyFile => rfl
    | groupedJSON gd => rfl
    | legacyJSON arr => rfl

/-- C4: if the temp write, temp close, or rename step of
`WriteGroupedFile` fails, the temporary file is removed, the step's
typed error is returned, and the destination path's prior content is
unchanged; when no step fails, the destination is replaced, by the
single rename, with the fully written serialized merge. -/
theorem writeGroupedFile_atomic (fs : FS) (path : String) (newest : GroupedData)
    (tmpName : String) (fail : StepFail)
    (hpath : path ≠ "")
    (htmp : tmpName ≠ path)
    (hdir : lookupFS fs path ≠ some FileContent.dir)
    (hother : ∀ s, lookupFS fs path ≠ some (FileContent.otherJSON s)) :
    ((fail = StepFail.writeTemp →
        (WriteGroupedFile fs path newest tmpName fail).2 = some WriteError.writeTempFail) ∧
     (fail = StepFail.closeTemp →
        (WriteGroupedFile fs path newest tmpName fail).2 = some WriteError.closeTempFail) ∧
     (fail = StepFail.rename →
        (WriteGroupedFile fs path newest tmpName fail).2 = some WriteError.renameFail) ∧
     (fail = StepFail.writeTemp ∨ fail = StepFail.closeTemp ∨ fail = StepFail.rename →
        lookupFS (WriteGroupedFile fs path newest tmpName fail).1 path = lookupFS fs path ∧
        lookupFS (WriteGroupedFile fs path newest tmpName fail).1 tmpName = none)) ∧
    (fail = StepFail.noFail →
        (WriteGroupedFile fs path newest tmpName fail).2 = none ∧
        lookupFS (WriteGroupedFile fs path newest tmpName fail).1 path
          = some (FileContent.groupedJSON (mergeGrouped (existingOf fs path) newest))) := by
  rw [writeGroupedFile_reaches_tail fs path newest tmpName fail hpath hdir hother]
  have hptm : path ≠ tmpName := fun e => htmp e.symm
  refine ⟨⟨?_, ?_, ?_, ?_⟩, ?_⟩
  · rintro rfl
    rfl
  · rintro rfl
    rfl
  · rintro rfl
    rfl
  · rintro (rfl | rfl | rfl)
    · refine ⟨?_, ?_⟩
      · show lookupFS (removeFS (setFS fs tmpName FileContent.emptyFile) tmpName) path
          = lookupFS fs path
        rw [lookupFS_remove_ne _ _ _ hptm, lookupFS_set_ne _ _ _ _ hptm]
      · exact lookupFS_remove_self _ _
    · refine ⟨?_, ?_⟩
      · show lookupFS (removeFS (setFS (setFS fs tmpName FileContent.emptyFile) tmpName
            (FileContent.groupedJSON (mergeGrouped (existingOf fs path) newest))) tmpName) path
          = lookupFS fs path
        rw [lookupFS_remove_ne _ _ _ hptm, lookupFS_set_ne _ _ _ _ hptm,
          lookupFS_set_ne _ _ _ _ hptm]
      · exact lookupFS_remove_self _ _
    · refine ⟨?_, ?_⟩
      · show lookupFS (removeFS (setFS (setFS fs tmpName FileContent.emptyFile) tmpName
            (FileContent.groupedJSON (mergeGrouped (existingOf fs path) newest))) tmpName) path
          = lookupFS fs path
        rw [lookupFS_remove_ne _ _ _ hptm, lookupFS_set_ne _ _ _ _ hptm,
          lookupFS_set_ne _ _ _ _ hptm]
      · exact lookupFS_remove_self _ _
  · rintro rfl
    refine ⟨rfl, ?_⟩
    exact lookupFS_set_self _ _ _

/-- Filesystem for the C4 witness: the destination exists and holds an
empty grouped store. -/
def c4fs : FS := [("out.json", FileContent.groupedJSON ⟨[], []⟩)]

/-- Witness for C4: a failing temp write leaves the destination's prior
content in place, removes the temp file, and reports the typed error. -/
theorem writeGroupedFile_atomic_witness :
    (WriteGroupedFile c4fs "out.json" ⟨[], []⟩ ".out.json.1.tmp" StepFail.writeTemp).2
      = some WriteError.writeTempFail ∧
    lookupFS (WriteGroupedFile c4fs "out.json" ⟨[], []⟩ ".out.json.1.tmp"
        StepFail.writeTemp).1 "out.json"
      = lookupFS c4fs "out.json" ∧
    lookupFS (WriteGroupedFile c4fs "out.json" ⟨[], []⟩ ".out.json.1.tmp"
        StepFail.writeTemp).1 ".out.json.1.tmp"
      = none := by
  have h := writeGroupedFile_atomic c4fs "out.json" ⟨[], []⟩ ".out.json.1.tmp"
    StepFail.writeTemp (by decide) (by decide) (by decide)
    (fun s hcontra => by
      rw [show lookupFS c4fs "out.json"
          = some (FileContent.groupedJSON ⟨[], []⟩) from rfl] at hcontra
      exact FileContent.noConfusion (Option.some.inj hcontra))
  rcases h.1 with ⟨h1, _, _, h4⟩
  rcases h4 (Or.inl rfl) with ⟨ha, hb⟩
  exact ⟨h1 rfl, ha, hb⟩

end Talia
